import Mathlib

/-!
Verification of HashThePlanet's fingerprint store (`hashtheplanet/sql/db_connector.py`)
and its git ingestion pipeline (`hashtheplanet/resources/git_resource.py`, whose
behaviour is pinned by `tests/resources/test_git_resource.py`).

The store is modelled as three in-memory tables (lists of rows).  SQLAlchemy's
`select(...).filter_by(...)` + `scalar_one_or_none` is modelled as `List.find?`
over the table (primary keys make at most one row match in any reachable state),
`session.add` appends a row, and `update(...).where(...).values(...)` maps over
the table replacing the targeted column of every matching row.  The JSON
round-trip `JSONEncoder().encode({"versions": vs})` / `loads(x)["versions"]`
performed by `insert_or_update_hash` is the identity on the list of version
labels, so the `versions` column is modelled directly as a `List String`.
-/

/-- Row of the `version` table: primary key (technology, version). -/
structure VersionRow where
  technology : String
  version : String
deriving Repr, DecidableEq

/-- Row of the `file` table: primary key (technology, path). -/
structure FileRow where
  technology : String
  path : String
deriving Repr, DecidableEq

/-- Row of the `hash` table: primary key `hash`; `versions` is the JSON-encoded
list of version labels, modelled directly as the list. -/
structure HashRow where
  hash : String
  technology : String
  versions : List String
deriving Repr, DecidableEq

/-- The whole database state: the three tables. -/
structure Store where
  versionTable : List VersionRow
  fileTable : List FileRow
  hashTable : List HashRow
deriving Repr, DecidableEq

/-- The empty database. -/
def emptyStore : Store := ⟨[], [], []⟩

/-- A Python value passed as the `version` argument of `insert_version`; the code
applies `str(...)` to it, so we distinguish strings from other values (modelled
by integers, the case exercised in practice). -/
inductive PyVal where
  | pyInt : Int → PyVal
  | pyStr : String → PyVal
deriving Repr, DecidableEq

/-- Python's `str(...)` on a `PyVal`. -/
def pyValStr : PyVal → String
  | .pyInt n => toString n
  | .pyStr s => s

/-- DbConnector.insert_version: select by (technology, str(version)); if absent,
add a new `Version` row with the stringified version. -/
def insert_version (store : Store) (technology : String) (version : PyVal) : Store :=
  let vs := pyValStr version
  match store.versionTable.find? (fun r => r.technology == technology && r.version == vs) with
  | some _ => store
  | none => { store with versionTable := store.versionTable ++ [⟨technology, vs⟩] }

/-- DbConnector.insert_versions: insert each version of the list in order. -/
def insert_versions (store : Store) (technology : String) (versions : List PyVal) : Store :=
  versions.foldl (fun st v => insert_version st technology v) store

/-- DbConnector.insert_file: select by (technology, path); if absent, add a new
`File` row. -/
def insert_file (store : Store) (technology : String) (path : String) : Store :=
  match store.fileTable.find? (fun r => r.technology == technology && r.path == path) with
  | some _ => store
  | none => { store with fileTable := store.fileTable ++ [⟨technology, path⟩] }

/-- DbConnector.insert_or_update_hash: select by hash; if absent, add a new
`Hash` row with versions `[version]`; if present and `version` is not among its
versions, update every row with that hash to carry the found entry's versions
extended by `version` (only the `versions` column is written); otherwise no-op. -/
def insert_or_update_hash (store : Store) (hash_value technology version : String) : Store :=
  match store.hashTable.find? (fun r => r.hash == hash_value) with
  | none =>
    { store with hashTable := store.hashTable ++ [⟨hash_value, technology, [version]⟩] }
  | some entry =>
    if version ∈ entry.versions then
      store
    else
      let new_versions := entry.versions ++ [version]
      { store with hashTable :=
          store.hashTable.map (fun r =>
            if r.hash == hash_value then { r with versions := new_versions } else r) }

/-- DbConnector.get_all_hashs: every `Hash` row. -/
def get_all_hashs (store : Store) : List HashRow := store.hashTable

/-- DbConnector.find_hash: technology and versions of the first row with the
given hash. -/
def find_hash (store : Store) (hash_str : String) : Option (String × List String) :=
  (store.hashTable.find? (fun r => r.hash == hash_str)).map (fun r => (r.technology, r.versions))

/-- Character class `[a-zA-Z0-9\s_\\.\-\(\):]` of the static-file regex. -/
def staticExtClassChar (c : Char) : Bool :=
  c.isAlpha || c.isDigit || c.isWhitespace || c == '_' || c == '\\' || c == '.'
    || c == '-' || c == '(' || c == ')' || c == ':'

/-- Match of the end-anchored pattern `[class]+<any>ext$` against `cs` for one
alternative `ext` of the alternation: `cs` must end with `ext`, preceded by one
arbitrary character (the unescaped regex dot), preceded by at least one
character of the class.  Since the regex is unanchored at the start, only the
single class character directly before the dot position is required. -/
def staticSuffixMatch (cs ext : List Char) : Bool :=
  ext.isSuffixOf cs &&
    (match ((cs.take (cs.length - ext.length)).dropLast).getLast? with
     | some c => staticExtClassChar c
     | none => false)

/-- Semantics of `File.path.regexp_match(r"([a-zA-Z0-9\s_\\.\-\(\):])+(.html|.md|.txt)$")`:
the dots in the alternation are unescaped, so each alternative is an arbitrary
character followed by the literal `html`, `md` or `txt`. -/
def staticFileRegexMatch (path : String) : Bool :=
  staticSuffixMatch path.data "html".data || staticSuffixMatch path.data "md".data
    || staticSuffixMatch path.data "txt".data

/-- DbConnector.get_static_files: the paths of all `File` rows matching the
static-file regex, in table order. -/
def get_static_files (store : Store) : List String :=
  (store.fileTable.filter (fun f => staticFileRegexMatch f.path)).map (fun f => f.path)

/-- Predicate taken from the spec's words for comparison: the path ends with one
of the fixed extensions `.html`, `.md`, `.txt`. -/
def endsWithStaticExt (path : String) : Bool :=
  ".html".data.isSuffixOf path.data || ".md".data.isSuffixOf path.data
    || ".txt".data.isSuffixOf path.data

/-- Database operation, used to characterise the reachable store states. -/
inductive Op where
  | opInsertVersion (technology : String) (version : PyVal)
  | opInsertFile (technology : String) (path : String)
  | opRecordHash (hash_value technology version : String)
deriving Repr, DecidableEq

/-- Apply one operation to the store. -/
def applyOp (store : Store) : Op → Store
  | .opInsertVersion t v => insert_version store t v
  | .opInsertFile t p => insert_file store t p
  | .opRecordHash h t v => insert_or_update_hash store h t v

/-- Apply a sequence of operations to the store; `applyOps ops emptyStore`
ranges over exactly the reachable store states. -/
def applyOps (ops : List Op) (store : Store) : Store := ops.foldl applyOp store

/-- Invariant of the hash table maintained by every operation: primary-key
uniqueness of `hash`, and no duplicate labels inside any row's `versions`. -/
def StoreInv (store : Store) : Prop :=
  (store.hashTable.map (fun r => r.hash)).Nodup ∧ ∀ r ∈ store.hashTable, r.versions.Nodup

/-- Git tree entry (blob): file mode, path, and git object id. -/
structure Blob where
  mode : Nat
  path : String
  hexsha : String
deriving Repr, DecidableEq

/-- One entry of `commit.diff(other)`: old side (`a_blob`) and new side
(`b_blob`), either of which may be absent. -/
structure DiffEntry where
  a_blob : Option Blob
  b_blob : Option Blob
deriving Repr, DecidableEq

/-- A tag: release name plus the traversal of its commit's tree. -/
structure Tag where
  name : String
  tree : List Blob
deriving Repr, DecidableEq

/-- Git regular-file test on a tree-entry mode: the object-type bits (the mode
shifted right by 12) denote a blob (8 = 0o100); directories (4 = 0o040),
symlinks (10 = 0o120) and gitlinks (14 = 0o160) are excluded.  The modes
exercised by the repository's tests are 33188 (regular file) and 16384
(directory). -/
def isRegularFileMode (mode : Nat) : Bool := mode / 4096 == 8

/-- Modelled from the spec: `GitResource.get_all_files_from_commit` is not under
`src/`; per spec §4.2 and `test_get_all_files_from_commit`, the walker traverses
the commit tree, keeps only regular-file entries, and emits their
(path, contentAddress) pairs in traversal order. -/
def get_all_files_from_commit (tree : List Blob) : List (String × String) :=
  match tree with
  | [] => []
  | blob :: rest =>
    if isRegularFileMode blob.mode then
      (blob.path, blob.hexsha) :: get_all_files_from_commit rest
    else
      get_all_files_from_commit rest

/-- Blob selected from a diff entry: the new side when present, otherwise the
old side.  The preference for the new side follows spec §4.3 (added/modified
files carry the new content address); the fall-back to the old side is pinned by
`test_get_changes_between_two_tags`, where a pure deletion is emitted. -/
def chooseBlob (d : DiffEntry) : Option Blob :=
  match d.b_blob with
  | some b => some b
  | none => d.a_blob

/-- Modelled from the spec: `GitResource._get_changes_between_two_tags` is not
under `src/`; per spec §4.3 and `test_get_changes_between_two_tags`, each diff
entry's selected blob (new side preferred, old side otherwise) is emitted as
(path, tagB name, contentAddress) when its mode is a regular file. -/
def get_changes_between_two_tags (tag_b_name : String) (diffs : List DiffEntry) :
    List (String × String × String) :=
  diffs.filterMap (fun d =>
    match chooseBlob d with
    | some blob =>
      if isRegularFileMode blob.mode then some (blob.path, tag_b_name, blob.hexsha) else none
    | none => none)

/-- Modelled from the spec: `GitResource._get_tag_files` is not under `src/`;
per `test_get_tag_files`, it annotates the baseline tag's tree walk with the
tag's name. -/
def get_tag_files (tag : Tag) : List (String × String × String) :=
  (get_all_files_from_commit tag.tree).map (fun ph => (ph.1, tag.name, ph.2))

/-- Modelled from the spec: `GitResource._get_diff_files` is not under `src/`;
per spec §4.3 and `test_get_diff_files`, it concatenates the changes of every
adjacent pair of tags, in order.  `diffOf a b` models `a.commit.diff(b.commit)`. -/
def get_diff_files (diffOf : Tag → Tag → List DiffEntry) (tags : List Tag) :
    List (String × String × String) :=
  (tags.zip tags.tail).foldr
    (fun ab acc => get_changes_between_two_tags ab.2.name (diffOf ab.1 ab.2) ++ acc) []

/-- Modelled from the spec: `GitResource._hash_files` is not under `src/`; per
spec §4.4 and `test_hash_files`, each (path, version, contentAddress) entry is
resolved through blob retrieval (`retrieve`, `none` on failure) and digested;
a failing entry is dropped and processing continues. -/
def hash_files (retrieve : String → Option String) (digest : String → String)
    (metadata : List (String × String × String)) : List (String × String × String) :=
  metadata.filterMap (fun m => (retrieve m.2.2).map (fun content => (m.1, m.2.1, digest content)))

/-- Modelled from the spec: `GitResource._get_diff_versions` is not under
`src/`; per spec §8 and `test_get_diff_versions`, it returns the tag names from
the first occurrence of `first` up to but excluding `last`. -/
def get_diff_versions (first last : String) (tags : List Tag) : List String :=
  (((tags.map Tag.name).dropWhile (fun t => !(t == first))).takeWhile (fun t => !(t == last)))

/-- Modelled from the spec: the store side of `GitResource._save_hashes` is not
under `src/`; per spec §4.5 (`ingest`), one logical unit of work registers all
version labels, then for every (path, version, contentHash) triple registers the
file and records the hash. -/
def ingest (store : Store) (technology : String) (versionLabels : List String)
    (triples : List (String × String × String)) : Store :=
  let s1 := versionLabels.foldl (fun st v => insert_version st technology (.pyStr v)) store
  triples.foldl (fun st m => insert_or_update_hash (insert_file st technology m.1) m.2.2 technology m.2.1) s1

/-- Modelled from the spec: `GitResource.clone_checkout_and_compute_hashs` is
not under `src/`; per spec §4.6 and `test_clone_checkout_and_compute_hashs`, the
orchestrator aborts on clone failure (and when there are no tags) before any
store write; otherwise it snapshots the first tag, diffs the remaining pairs,
hashes the concatenation and ingests the result. -/
def clone_checkout_and_compute_hashs (retrieve : String → Option String)
    (digest : String → String) (diffOf : Tag → Tag → List DiffEntry)
    (cloneResult : Except String (List Tag)) (store : Store) (technology : String) : Store :=
  match cloneResult with
  | .error _ => store
  | .ok tags =>
    match tags with
    | [] => store
    | firstTag :: _ =>
      let hashed := hash_files retrieve digest (get_tag_files firstTag ++ get_diff_files diffOf tags)
      ingest store technology (tags.map Tag.name) hashed

/-! ## Helper lemmas -/

/-- After `insert_or_update_hash`, one can find a row with the given hash whose
versions contain the recorded version. -/
theorem insert_or_update_hash_find (store : Store) (h t v : String) :
    ∃ entry, (insert_or_update_hash store h t v).hashTable.find? (fun r => r.hash == h)
        = some entry ∧ v ∈ entry.versions := by
  unfold insert_or_update_hash
  cases hf : store.hashTable.find? (fun r => r.hash == h) with
  | none =>
    dsimp only
    refine ⟨⟨h, t, [v]⟩, ?_, by simp⟩
    rw [List.find?_append, hf]
    simp
  | some entry =>
    dsimp only
    by_cases hv : v ∈ entry.versions
    · rw [if_pos hv]
      exact ⟨entry, hf, hv⟩
    · rw [if_neg hv]
      refine ⟨{ entry with versions := entry.versions ++ [v] }, ?_, by simp⟩
      rw [List.find?_map]
      have hcomp : ((fun r : HashRow => r.hash == h) ∘ fun r =>
          if r.hash == h then { r with versions := entry.versions ++ [v] } else r)
          = fun r : HashRow => r.hash == h := by
        funext r
        by_cases hr : (r.hash == h) = true
        · rw [Function.comp_apply, if_pos hr]
        · rw [Function.comp_apply, if_neg hr]
      rw [hcomp, hf]
      have hph := List.find?_some hf
      simp only [beq_iff_eq] at hph
      simp [Option.map_some, hph]

/-- Recording an already-present (hash, version) pair leaves the store
unchanged. -/
theorem insert_or_update_hash_noop (store : Store) (h t v : String) (entry : HashRow)
    (hf : store.hashTable.find? (fun r => r.hash == h) = some entry)
    (hv : v ∈ entry.versions) :
    insert_or_update_hash store h t v = store := by
  unfold insert_or_update_hash
  rw [hf]
  simp [hv]

/-! ## Claims -/

/-- C1: `recordHash` (`insert_or_update_hash`) is idempotent: invoking it twice
with the identical (contentHash, technology, version) triple gives the same
store as invoking it once, and invoking it on an already-recorded triple leaves
the store unchanged. -/
theorem C1_recordHash_idempotent :
    (∀ (store : Store) (h t v : String),
      insert_or_update_hash (insert_or_update_hash store h t v) h t v
        = insert_or_update_hash store h t v)
    ∧ (∀ (store : Store) (h t v : String) (entry : HashRow),
        store.hashTable.find? (fun r => r.hash == h) = some entry →
        v ∈ entry.versions →
        insert_or_update_hash store h t v = store) := by
  constructor
  · intro store h t v
    obtain ⟨entry, hf, hv⟩ := insert_or_update_hash_find store h t v
    exact insert_or_update_hash_noop _ h t v entry hf hv
  · intro store h t v entry hf hv
    exact insert_or_update_hash_noop store h t v entry hf hv

/-- C1 witness: recording ("h", "T", "1") on a store already holding that triple
changes nothing. -/
theorem C1_recordHash_idempotent_witness :
    insert_or_update_hash ⟨[], [], [⟨"h", "T", ["1"]⟩]⟩ "h" "T" "1"
      = ⟨[], [], [⟨"h", "T", ["1"]⟩]⟩ :=
  C1_recordHash_idempotent.2 ⟨[], [], [⟨"h", "T", ["1"]⟩]⟩ "h" "T" "1" ⟨"h", "T", ["1"]⟩
    (by decide) (by decide)

/-- Stores with equal hash tables satisfy the invariant together. -/
theorem storeInv_of_hashTable_eq {s s' : Store} (h : s'.hashTable = s.hashTable)
    (hinv : StoreInv s) : StoreInv s' := by
  unfold StoreInv at *
  rw [h]
  exact hinv

/-- StoreInv holds of the empty store. -/
theorem storeInv_empty : StoreInv emptyStore := by
  constructor
  · simp [emptyStore]
  · intro r hr
    simp [emptyStore] at hr

/-- insert_version does not touch the hash table. -/
theorem insert_version_hashTable (store : Store) (t : String) (v : PyVal) :
    (insert_version store t v).hashTable = store.hashTable := by
  unfold insert_version
  dsimp only
  split <;> rfl

/-- insert_file does not touch the hash table. -/
theorem insert_file_hashTable (store : Store) (t p : String) :
    (insert_file store t p).hashTable = store.hashTable := by
  unfold insert_file
  split <;> rfl

/-- insert_or_update_hash preserves the hash-table invariant. -/
theorem storeInv_insert_or_update_hash (store : Store) (h t v : String)
    (hinv : StoreInv store) : StoreInv (insert_or_update_hash store h t v) := by
  obtain ⟨hkeys, hvers⟩ := hinv
  unfold insert_or_update_hash
  cases hf : store.hashTable.find? (fun r => r.hash == h) with
  | none =>
    dsimp only
    constructor
    · rw [List.map_append, List.nodup_append]
      refine ⟨hkeys, by simp, ?_⟩
      intro a ha hb
      simp only [List.map_cons, List.map_nil, List.mem_singleton] at hb
      subst hb
      obtain ⟨r, hr, hrh⟩ := List.mem_map.mp ha
      have hno := List.find?_eq_none.mp hf r hr
      simp [hrh] at hno
    · intro r hr
      rcases List.mem_append.mp hr with h1 | h2
      · exact hvers r h1
      · simp only [List.mem_singleton] at h2
        subst h2
        simp
  | some entry =>
    dsimp only
    by_cases hv : v ∈ entry.versions
    · rw [if_pos hv]
      exact ⟨hkeys, hvers⟩
    · rw [if_neg hv]
      constructor
      · rw [List.map_map]
        have hcomp : ((fun r : HashRow => r.hash) ∘ fun r =>
            if r.hash == h then { r with versions := entry.versions ++ [v] } else r)
            = fun r : HashRow => r.hash := by
          funext r
          by_cases hr : (r.hash == h) = true
          · rw [Function.comp_apply, if_pos hr]
          · rw [Function.comp_apply, if_neg hr]
        rw [hcomp]
        exact hkeys
      · intro r hr
        obtain ⟨r0, hr0, hr0eq⟩ := List.mem_map.mp hr
        have hnd : (entry.versions ++ [v]).Nodup := by
          rw [List.nodup_append]
          refine ⟨hvers entry (List.mem_of_find?_eq_some hf), by simp, ?_⟩
          intro a ha hb
          simp only [List.mem_singleton] at hb
          subst hb
          exact hv ha
        by_cases hrh : (r0.hash == h) = true
        · rw [if_pos hrh] at hr0eq
          rw [← hr0eq]
          exact hnd
        · rw [if_neg hrh] at hr0eq
          rw [← hr0eq]
          exact hvers r0 hr0

/-- Every operation preserves the hash-table invariant. -/
theorem storeInv_applyOp (store : Store) (op : Op) (hinv : StoreInv store) :
    StoreInv (applyOp store op) := by
  cases op with
  | opInsertVersion t v =>
    exact storeInv_of_hashTable_eq (insert_version_hashTable store t v) hinv
  | opInsertFile t p =>
    exact storeInv_of_hashTable_eq (insert_file_hashTable store t p) hinv
  | opRecordHash h t v => exact storeInv_insert_or_update_hash store h t v hinv

/-- The invariant holds of every reachable store state. -/
theorem storeInv_applyOps (ops : List Op) (store : Store) (hinv : StoreInv store) :
    StoreInv (applyOps ops store) := by
  induction ops generalizing store with
  | nil => exact hinv
  | cons op rest ih => exact ih (applyOp store op) (storeInv_applyOp store op hinv)

/-- Recording a fresh digest under two distinct versions leaves exactly one row
for it, carrying both versions. -/
theorem insert_twice_fresh (store : Store) (h t v1 v2 : String) (hne : v1 ≠ v2)
    (hf : store.hashTable.find? (fun r => r.hash == h) = none) :
    (insert_or_update_hash (insert_or_update_hash store h t v1) h t v2).hashTable.filter
      (fun r => r.hash == h) = [⟨h, t, [v1, v2]⟩] := by
  have hall : ∀ r ∈ store.hashTable, (r.hash == h) = false := by
    intro r hr
    have hno := List.find?_eq_none.mp hf r hr
    simpa using hno
  have step1 : insert_or_update_hash store h t v1
      = { store with hashTable := store.hashTable ++ [⟨h, t, [v1]⟩] } := by
    unfold insert_or_update_hash
    rw [hf]
  rw [step1]
  have step2 : (store.hashTable ++ [(⟨h, t, [v1]⟩ : HashRow)]).find? (fun r => r.hash == h)
      = some ⟨h, t, [v1]⟩ := by
    rw [List.find?_append, hf]
    simp
  have hv2 : v2 ∉ ([v1] : List String) := by
    simp only [List.mem_singleton]
    exact fun e => hne e.symm
  unfold insert_or_update_hash
  dsimp only
  rw [step2]
  dsimp only
  rw [if_neg hv2]
  dsimp only
  rw [List.map_append, List.filter_append]
  have hmap1 : store.hashTable.map (fun r =>
      if r.hash == h then { r with versions := [v1] ++ [v2] } else r) = store.hashTable := by
    refine Eq.trans (List.map_congr_left ?_) (List.map_id' store.hashTable)
    intro r hr
    rw [if_neg (by simp [hall r hr])]
  rw [hmap1]
  have hfil1 : store.hashTable.filter (fun r => r.hash == h) = [] := by
    rw [List.filter_eq_nil_iff]
    intro r hr
    simp [hall r hr]
  rw [hfil1]
  simp

/-- Every operation, applied to a store satisfying the invariant, can only
extend the versions of an existing hash row (never shrink or rewrite them). -/
theorem versions_monotone (store : Store) (op : Op) (hinv : StoreInv store)
    (r : HashRow) (hr : r ∈ store.hashTable) :
    ∃ r' ∈ (applyOp store op).hashTable,
      r'.hash = r.hash ∧ r.versions <+: r'.versions := by
  cases op with
  | opInsertVersion t v =>
    refine ⟨r, ?_, rfl, ⟨[], by simp⟩⟩
    rw [show (applyOp store (Op.opInsertVersion t v)).hashTable
        = (insert_version store t v).hashTable from rfl, insert_version_hashTable]
    exact hr
  | opInsertFile t p =>
    refine ⟨r, ?_, rfl, ⟨[], by simp⟩⟩
    rw [show (applyOp store (Op.opInsertFile t p)).hashTable
        = (insert_file store t p).hashTable from rfl, insert_file_hashTable]
    exact hr
  | opRecordHash h t v =>
    show ∃ r' ∈ (insert_or_update_hash store h t v).hashTable,
      r'.hash = r.hash ∧ r.versions <+: r'.versions
    unfold insert_or_update_hash
    cases hf : store.hashTable.find? (fun r => r.hash == h) with
    | none =>
      dsimp only
      exact ⟨r, List.mem_append_left _ hr, rfl, ⟨[], by simp⟩⟩
    | some entry =>
      dsimp only
      by_cases hv : v ∈ entry.versions
      · rw [if_pos hv]
        exact ⟨r, hr, rfl, ⟨[], by simp⟩⟩
      · rw [if_neg hv]
        dsimp only
        by_cases hrh : (r.hash == h) = true
        · have hentry_mem := List.mem_of_find?_eq_some hf
          have hph := List.find?_some hf
          simp only [beq_iff_eq] at hph
          have hrh2 : r.hash = h := by simpa using hrh
          have hre : r = entry := by
            apply List.inj_on_of_nodup_map hinv.1 hr hentry_mem
            show r.hash = entry.hash
            rw [hrh2, hph]
          refine ⟨{ r with versions := entry.versions ++ [v] }, ?_, rfl, ?_⟩
          · have hfr : (fun r0 : HashRow =>
                if r0.hash == h then { r0 with versions := entry.versions ++ [v] } else r0) r
                = { r with versions := entry.versions ++ [v] } := by
              dsimp only
              rw [if_pos hrh]
            rw [← hfr]
            exact List.mem_map_of_mem _ hr
          · rw [hre]
            exact ⟨[v], rfl⟩
        · refine ⟨r, ?_, rfl, ⟨[], by simp⟩⟩
          have hfr : (fun r0 : HashRow =>
              if r0.hash == h then { r0 with versions := entry.versions ++ [v] } else r0) r
              = r := by
            dsimp only
            rw [if_neg hrh]
          rw [← hfr]
          exact List.mem_map_of_mem _ hr

/-- C2: over every reachable store state, no Hash row's versions list contains a
duplicate label; recording a fresh digest under two distinct versions v1 ≠ v2 of
one technology leaves exactly one row for that digest, with versions [v1, v2];
and every operation only ever extends a row's versions list. -/
theorem C2_versions_nodup_dedup_monotone :
    ∀ (ops : List Op),
      (∀ r ∈ (applyOps ops emptyStore).hashTable, r.versions.Nodup)
      ∧ (∀ (h t v1 v2 : String), v1 ≠ v2 →
          (applyOps ops emptyStore).hashTable.find? (fun r => r.hash == h) = none →
          (insert_or_update_hash (insert_or_update_hash (applyOps ops emptyStore) h t v1)
              h t v2).hashTable.filter (fun r => r.hash == h)
            = [⟨h, t, [v1, v2]⟩])
      ∧ (∀ (op : Op), ∀ r ∈ (applyOps ops emptyStore).hashTable,
          ∃ r' ∈ (applyOp (applyOps ops emptyStore) op).hashTable,
            r'.hash = r.hash ∧ r.versions <+: r'.versions) := by
  intro ops
  have hinv := storeInv_applyOps ops emptyStore storeInv_empty
  refine ⟨hinv.2, ?_, ?_⟩
  · intro h t v1 v2 hne hf
    exact insert_twice_fresh _ h t v1 v2 hne hf
  · intro op r hr
    exact versions_monotone _ op hinv r hr

/-- C2 witness: starting from the (reachable) empty store, recording digest "h"
under versions "1" then "2" leaves exactly one row for "h" with versions
["1", "2"]. -/
theorem C2_versions_nodup_dedup_monotone_witness :
    (insert_or_update_hash (insert_or_update_hash (applyOps [] emptyStore) "h" "T" "1")
        "h" "T" "2").hashTable.filter (fun r => r.hash == "h")
      = [⟨"h", "T", ["1", "2"]⟩] :=
  (C2_versions_nodup_dedup_monotone []).2.1 "h" "T" "1" "2" (by decide) rfl

/-- C3: when a Hash row for the given contentHash already exists, a later
insert_or_update_hash call — with any technology argument, in particular a
different one — leaves every row's (hash, technology) pair unchanged, and the
row found for that contentHash keeps its stored technology, with its versions
either unchanged or extended by the new version. -/
theorem C3_technology_written_once :
    ∀ (store : Store) (h t' v : String) (entry : HashRow),
      store.hashTable.find? (fun r => r.hash == h) = some entry →
      ((insert_or_update_hash store h t' v).hashTable.map (fun r => (r.hash, r.technology))
          = store.hashTable.map (fun r => (r.hash, r.technology)))
      ∧ (insert_or_update_hash store h t' v).hashTable.find? (fun r => r.hash == h)
          = some { entry with versions :=
              if v ∈ entry.versions then entry.versions else entry.versions ++ [v] } := by
  intro store h t' v entry hf
  unfold insert_or_update_hash
  rw [hf]
  dsimp only
  by_cases hv : v ∈ entry.versions
  · rw [if_pos hv, if_pos hv]
    exact ⟨rfl, hf⟩
  · rw [if_neg hv, if_neg hv]
    dsimp only
    constructor
    · rw [List.map_map]
      refine List.map_congr_left ?_
      intro r hr
      by_cases hrh : (r.hash == h) = true
      · rw [Function.comp_apply, if_pos hrh]
      · rw [Function.comp_apply, if_neg hrh]
    · rw [List.find?_map]
      have hcomp : ((fun r : HashRow => r.hash == h) ∘ fun r =>
          if r.hash == h then { r with versions := entry.versions ++ [v] } else r)
          = fun r : HashRow => r.hash == h := by
        funext r
        by_cases hr : (r.hash == h) = true
        · rw [Function.comp_apply, if_pos hr]
        · rw [Function.comp_apply, if_neg hr]
      rw [hcomp, hf]
      have hph := List.find?_some hf
      simp only [beq_iff_eq] at hph
      simp [Option.map_some, hph]

/-- C3 witness: on a store holding row ("h", "T", ["1"]), recording "h" under
technology "U" and version "2" keeps hash and technology of every row and
extends the found row's versions to ["1", "2"]. -/
theorem C3_technology_written_once_witness :
    ((insert_or_update_hash ⟨[], [], [⟨"h", "T", ["1"]⟩]⟩ "h" "U" "2").hashTable.map
        (fun r => (r.hash, r.technology))
      = (⟨[], [], [⟨"h", "T", ["1"]⟩]⟩ : Store).hashTable.map (fun r => (r.hash, r.technology)))
    ∧ (insert_or_update_hash ⟨[], [], [⟨"h", "T", ["1"]⟩]⟩ "h" "U" "2").hashTable.find?
        (fun r => r.hash == "h")
      = some { (⟨"h", "T", ["1"]⟩ : HashRow) with versions :=
          if "2" ∈ (⟨"h", "T", ["1"]⟩ : HashRow).versions
          then (⟨"h", "T", ["1"]⟩ : HashRow).versions
          else (⟨"h", "T", ["1"]⟩ : HashRow).versions ++ ["2"] } :=
  C3_technology_written_once ⟨[], [], [⟨"h", "T", ["1"]⟩]⟩ "h" "U" "2" ⟨"h", "T", ["1"]⟩
    (by decide)

/-- C4 counterexample: a pure deletion (old side present, new side absent) of a
regular-file entry does NOT produce zero output rows — the Diff Walker emits one
triple for it, carrying the old side's path and content address, exactly as the
repository's own unit test expects for `setup.cfg`. -/
theorem C4_pure_deletion_emitted :
    get_changes_between_two_tags "1.2.3"
        [⟨some ⟨33188, "setup.cfg", "e42f952edc48e2c085c206166bf4f1ead4d4b058"⟩, none⟩]
      = [("setup.cfg", "1.2.3", "e42f952edc48e2c085c206166bf4f1ead4d4b058")]
    ∧ get_changes_between_two_tags "1.2.3"
        [⟨some ⟨33188, "setup.cfg", "e42f952edc48e2c085c206166bf4f1ead4d4b058"⟩, none⟩]
      ≠ ([] : List (String × String × String)) := by
  constructor
  · rfl
  · decide

/-- C4 (amended): the Diff Walker emits exactly the triples whose diff entry has
a selected blob (new side preferred, old side as fall-back) of regular-file
mode, tagged with tagB's name; in particular a pure deletion of a regular-file
entry produces one output row carrying the old side's path and content address,
not zero. -/
theorem C4_diff_walker_amended :
    (∀ (tagB : String) (diffs : List DiffEntry) (p t h : String),
      (p, t, h) ∈ get_changes_between_two_tags tagB diffs ↔
        ∃ d ∈ diffs, ∃ blob, chooseBlob d = some blob ∧ isRegularFileMode blob.mode = true
          ∧ blob.path = p ∧ t = tagB ∧ blob.hexsha = h)
    ∧ (∀ (tagB : String) (b : Blob), isRegularFileMode b.mode = true →
        get_changes_between_two_tags tagB [⟨some b, none⟩] = [(b.path, tagB, b.hexsha)]) := by
  constructor
  · intro tagB diffs p t h
    unfold get_changes_between_two_tags
    rw [List.mem_filterMap]
    constructor
    · rintro ⟨d, hd, hemit⟩
      refine ⟨d, hd, ?_⟩
      cases hc : chooseBlob d with
      | none =>
        rw [hc] at hemit
        simp at hemit
      | some blob =>
        rw [hc] at hemit
        dsimp only at hemit
        by_cases hm : isRegularFileMode blob.mode = true
        · rw [if_pos hm] at hemit
          simp only [Option.some.injEq, Prod.mk.injEq] at hemit
          exact ⟨blob, rfl, hm, hemit.1, hemit.2.1.symm, hemit.2.2⟩
        · rw [if_neg hm] at hemit
          simp at hemit
    · rintro ⟨d, hd, blob, hc, hm, hp, ht, hh⟩
      refine ⟨d, hd, ?_⟩
      rw [hc]
      dsimp only
      rw [if_pos hm]
      subst hp
      subst ht
      subst hh
      rfl
  · intro tagB b hm
    simp [get_changes_between_two_tags, chooseBlob, hm]

/-- C4 witness: deleting the regular file LICENSE between two tags emits its
old-side triple. -/
theorem C4_diff_walker_amended_witness :
    get_changes_between_two_tags "1.2.4"
        [⟨some ⟨33188, "LICENSE", "d159169d1050894d3ea3b98e1c965c4058208fe1"⟩, none⟩]
      = [("LICENSE", "1.2.4", "d159169d1050894d3ea3b98e1c965c4058208fe1")] :=
  C4_diff_walker_amended.2 "1.2.4" ⟨33188, "LICENSE", "d159169d1050894d3ea3b98e1c965c4058208fe1"⟩
    (by decide)

/-- C5: when repository acquisition fails, the orchestrator aborts before any
tag processing and the store is returned untouched — zero rows are written to
the Version, File and Hash tables, so the state after the failed run equals the
state before it. -/
theorem C5_clone_failure_writes_nothing :
    ∀ (retrieve : String → Option String) (digest : String → String)
      (diffOf : Tag → Tag → List DiffEntry) (e : String) (store : Store) (technology : String),
      clone_checkout_and_compute_hashs retrieve digest diffOf (Except.error e) store technology
        = store := by
  intro retrieve digest diffOf e store technology
  rfl

/-- C6: a retrieval failure on one entry drops exactly that entry from the
Content Hasher's output: the surrounding entries are still processed in order,
and an entry whose retrieval succeeds always contributes its digest triple. -/
theorem C6_per_entry_failure_dropped :
    ∀ (retrieve : String → Option String) (digest : String → String)
      (pre post : List (String × String × String)) (p v b : String),
      (retrieve b = none →
        hash_files retrieve digest (pre ++ (p, v, b) :: post)
          = hash_files retrieve digest pre ++ hash_files retrieve digest post)
      ∧ (∀ c, retrieve b = some c →
          hash_files retrieve digest (pre ++ (p, v, b) :: post)
            = hash_files retrieve digest pre
              ++ (p, v, digest c) :: hash_files retrieve digest post) := by
  intro retrieve digest pre post p v b
  constructor
  · intro hfail
    unfold hash_files
    rw [List.filterMap_append]
    congr 1
    rw [List.filterMap_cons]
    dsimp only
    rw [hfail]
    rfl
  · intro c hok
    unfold hash_files
    rw [List.filterMap_append]
    congr 1
    rw [List.filterMap_cons]
    dsimp only
    rw [hok]
    rfl

/-- C6 witness: with a retrieval oracle failing only on blob "bad", the middle
entry is dropped while the entries before and after it are digested. -/
theorem C6_per_entry_failure_dropped_witness :
    hash_files (fun s => if s == "bad" then none else some (String.append s s))
        (fun s => String.append "digest-" s)
        ([("a", "1", "g")] ++ ("x", "1", "bad") :: [("b", "2", "g")])
      = hash_files (fun s => if s == "bad" then none else some (String.append s s))
          (fun s => String.append "digest-" s) [("a", "1", "g")]
        ++ hash_files (fun s => if s == "bad" then none else some (String.append s s))
            (fun s => String.append "digest-" s) [("b", "2", "g")] :=
  (C6_per_entry_failure_dropped (fun s => if s == "bad" then none else some (String.append s s))
      (fun s => String.append "digest-" s) [("a", "1", "g")] [("b", "2", "g")] "x" "1" "bad").1
    (by decide)

/-- C7 counterexample: `get_static_files` is not an extension-suffix filter —
the path "indexhtml" does not end with ".html", ".md" or ".txt", yet the regex
(whose alternation dots are unescaped) accepts it; conversely the path ".md"
ends with ".md" but is rejected, because no class character precedes it. -/
theorem C7_regex_differs_from_extension_filter :
    get_static_files ⟨[], [⟨"T", "indexhtml"⟩], []⟩ = ["indexhtml"]
    ∧ endsWithStaticExt "indexhtml" = false
    ∧ get_static_files ⟨[], [⟨"T", ".md"⟩], []⟩ = []
    ∧ endsWithStaticExt ".md" = true := by
  refine ⟨?_, ?_, ?_, ?_⟩ <;> decide

/-- C7 (amended): `get_static_files` returns exactly the File paths accepted by
the regex `([a-zA-Z0-9\s_\\.\-\(\):])+(.html|.md|.txt)$` (one class character,
one arbitrary character, then the literal "html", "md" or "txt" at the end of
the path); over a table containing index.html, readme.md and main.js this
returns exactly index.html and readme.md. -/
theorem C7_static_files_amended :
    (∀ (store : Store) (p : String),
      p ∈ get_static_files store ↔
        (∃ t, FileRow.mk t p ∈ store.fileTable) ∧ staticFileRegexMatch p = true)
    ∧ get_static_files ⟨[], [⟨"T", "index.html"⟩, ⟨"T", "readme.md"⟩, ⟨"T", "main.js"⟩], []⟩
        = ["index.html", "readme.md"] := by
  constructor
  · intro store p
    unfold get_static_files
    rw [List.mem_map]
    constructor
    · rintro ⟨f, hf, hp⟩
      rw [List.mem_filter] at hf
      subst hp
      exact ⟨⟨f.technology, hf.1⟩, hf.2⟩
    · rintro ⟨⟨t, ht⟩, hm⟩
      refine ⟨⟨t, p⟩, ?_, rfl⟩
      rw [List.mem_filter]
      exact ⟨ht, hm⟩
  · decide

/-- C8: the Tree Walker emits, in traversal order, one (path, contentAddress)
pair per regular-file entry and excludes every entry of another mode; on the
test's tree (a directory entry between two regular files) it emits exactly the
two regular files. -/
theorem C8_tree_walker_regular_files :
    (∀ (tree : List Blob),
      get_all_files_from_commit tree
        = (tree.filter (fun b => isRegularFileMode b.mode)).map (fun b => (b.path, b.hexsha)))
    ∧ get_all_files_from_commit
        [⟨33188, "LICENSE", "d159169d1050894d3ea3b98e1c965c4058208fe1"⟩,
         ⟨16384, "dist", "29a422c19251aeaeb907175e9b3219a9bed6c616"⟩,
         ⟨33188, "setup.cfg", "e42f952edc48e2c085c206166bf4f1ead4d4b058"⟩]
      = [("LICENSE", "d159169d1050894d3ea3b98e1c965c4058208fe1"),
         ("setup.cfg", "e42f952edc48e2c085c206166bf4f1ead4d4b058")] := by
  constructor
  · intro tree
    induction tree with
    | nil => rfl
    | cons b rest ih =>
      by_cases hm : isRegularFileMode b.mode = true
      · simp [get_all_files_from_commit, List.filter_cons, hm, ih]
      · simp [get_all_files_from_commit, List.filter_cons, hm, ih]
  · decide

/-- Helper: dropWhile over labels not containing `first` stops exactly at the
first occurrence of `first`. -/
theorem dropWhile_until_first {first : String} {l₁ l₂ : List String} (h : first ∉ l₁) :
    (l₁ ++ first :: l₂).dropWhile (fun t => !(t == first)) = first :: l₂ := by
  induction l₁ with
  | nil =>
    rw [List.nil_append]
    exact List.dropWhile_cons_of_neg (by simp)
  | cons a l ih =>
    have ha : (a == first) = false := by
      rw [beq_eq_false_iff_ne]
      intro e
      exact h (by rw [e]; exact List.mem_cons_self _ _)
    rw [List.cons_append, List.dropWhile_cons_of_pos (by simp [ha])]
    exact ih (fun hm => h (List.mem_cons_of_mem _ hm))

/-- Helper: takeWhile over labels not containing `last` keeps exactly the part
before the first occurrence of `last`. -/
theorem takeWhile_until_last {last : String} {l₁ l₂ : List String} (h : last ∉ l₁) :
    (l₁ ++ last :: l₂).takeWhile (fun t => !(t == last)) = l₁ := by
  induction l₁ with
  | nil =>
    rw [List.nil_append]
    exact List.takeWhile_cons_of_neg (by simp)
  | cons a l ih =>
    have ha : (a == last) = false := by
      rw [beq_eq_false_iff_ne]
      intro e
      exact h (by rw [e]; exact List.mem_cons_self _ _)
    rw [List.cons_append, List.takeWhile_cons_of_pos (by simp [ha])]
    rw [ih (fun hm => h (List.mem_cons_of_mem _ hm))]

/-- C9: when `first` occurs before `last` in the tag list, `_get_diff_versions`
returns exactly the contiguous labels from `first` (inclusive) up to `last`
(exclusive), and never includes `last` (nor, the result being exactly that
sublist, any label positioned after it). -/
theorem C9_half_open_interval :
    ∀ (first last : String) (tags : List Tag) (pre mid post : List String),
      tags.map Tag.name = pre ++ first :: (mid ++ last :: post) →
      first ∉ pre → first ≠ last → last ∉ mid →
      get_diff_versions first last tags = first :: mid ∧ last ∉ (first :: mid) := by
  intro first last tags pre mid post hmap hpre hne hmid
  have hlast : last ∉ first :: mid := by
    intro hm
    rcases List.mem_cons.mp hm with e | hm2
    · exact hne e.symm
    · exact hmid hm2
  refine ⟨?_, hlast⟩
  unfold get_diff_versions
  rw [hmap, dropWhile_until_first hpre]
  rw [show first :: (mid ++ last :: post) = (first :: mid) ++ last :: post from rfl]
  exact takeWhile_until_last hlast

/-- C9 witness: the repository test's vector — versions 1.2.3 … 1.5.0 with
first = 1.2.3 and last = 1.4 — yields exactly [1.2.3, 1.2.4, 1.3]. -/
theorem C9_half_open_interval_witness :
    get_diff_versions "1.2.3" "1.4"
        [⟨"1.2.3", []⟩, ⟨"1.2.4", []⟩, ⟨"1.3", []⟩, ⟨"1.4", []⟩, ⟨"1.5.0", []⟩]
      = ["1.2.3", "1.2.4", "1.3"] :=
  (C9_half_open_interval "1.2.3" "1.4"
      [⟨"1.2.3", []⟩, ⟨"1.2.4", []⟩, ⟨"1.3", []⟩, ⟨"1.4", []⟩, ⟨"1.5.0", []⟩]
      [] ["1.2.4", "1.3"] ["1.5.0"] (by decide) (by decide) (by decide) (by decide)).1

/-- C10: `insert_version` coerces its version argument with `str(...)` before
both the existence check and the insert, so any value and its string form are
interchangeable; in particular inserting the integer 1 and then the string "1"
creates a single ("T", "1") row, not two. -/
theorem C10_insert_version_stringifies :
    (∀ (store : Store) (technology : String) (v : PyVal),
      insert_version store technology v
        = insert_version store technology (PyVal.pyStr (pyValStr v)))
    ∧ (insert_version (insert_version emptyStore "T" (PyVal.pyInt 1)) "T"
        (PyVal.pyStr "1")).versionTable = [⟨"T", "1"⟩] := by
  constructor
  · intro store technology v
    rfl
  · decide
